import Mathlib

/-!
Verification of the PoST trapdoor time-lock delay scheme.

The development shallowly embeds `src/main.rs`.  Byte sequences are
`List Nat` (each element a byte value); OpenSSL `BigNum` values are `Nat`
(all values manipulated by the program are non-negative).  The SHA3-256
digest primitive is an external library call, so it is modelled as an
arbitrary function `H : List Nat → List Nat` together with the streaming
`Hasher` interface the program actually uses; every statement quantifies
over `H`.
-/

namespace PoST

/-- Streaming hash state: `Hasher::new()` starts with an empty buffer and
`update` appends bytes, mirroring the incremental interface of
`openssl::hash::Hasher`. -/
structure Hasher where
  buf : List Nat

def Hasher.new : Hasher := ⟨[]⟩

def Hasher.update (h : Hasher) (d : List Nat) : Hasher := ⟨h.buf ++ d⟩

/-- `finish` applies the underlying digest function `H` to everything fed
to the hasher so far. -/
def Hasher.finish (H : List Nat → List Nat) (h : Hasher) : List Nat := H h.buf

/-- `fn sha3(data)` : one-call digest of `data`. -/
def sha3 (H : List Nat → List Nat) (data : List Nat) : List Nat :=
  (Hasher.new.update data).finish H

/-- `fn hmac(key, data)` : feed `key`, then `data`, into one hasher. -/
def hmac (H : List Nat → List Nat) (key data : List Nat) : List Nat :=
  ((Hasher.new.update key).update data).finish H

/-- `BigNum::from_slice` : big-endian bytes to a non-negative integer. -/
def bytesToNat (l : List Nat) : Nat := l.foldl (fun a b => a * 256 + b) 0

/-- Fuel-indexed helper for `BigNum::to_vec`; the fuel is only there to
make the recursion structural, `natToBytes` supplies enough of it. -/
def natToBytesAux : Nat → Nat → List Nat
  | 0, _ => []
  | _ + 1, 0 => []
  | fuel + 1, m + 1 => natToBytesAux fuel ((m + 1) / 256) ++ [(m + 1) % 256]

/-- `BigNum::to_vec` : minimal big-endian byte encoding (empty for zero). -/
def natToBytes (m : Nat) : List Nat := natToBytesAux m m

/-- `BigNum::set_bit(i)` : set bit `i` of `a`. -/
def set_bit (a i : Nat) : Nat := a ||| 2 ^ i

/-- The trapdoor exponent derived inside `store`: a fresh zero `BigNum`
gets bit `1 << t` set and is then reduced modulo `phi = (p-1)*(q-1)`. -/
def trapdoorExp (p q t : Nat) : Nat := set_bit 0 (1 <<< t) % ((p - 1) * (q - 1))

/-- `fn eval_trap(x, n, e)` : `mod_exp` of the big-endian value of `x`,
re-encoded as bytes. -/
def eval_trap (x : List Nat) (n e : Nat) : List Nat :=
  natToBytes (bytesToNat x ^ e % n)

/-- The squaring loop of `fn eval`: `g = (g * g) % n`, iterated. -/
def sqLoop (n : Nat) : Nat → Nat → Nat
  | 0, g => g
  | m + 1, g => sqLoop n m (g * g % n)

/-- `fn eval(x, n, t)` : square the big-endian value of `x` modulo `n`
exactly `1 << t` times, then re-encode as bytes. -/
def eval (x : List Nat) (n t : Nat) : List Nat :=
  natToBytes (sqLoop n (1 <<< t) (bytesToNat x))

/-- Number of iterations of `for _ in 0..=k` for an `i32` bound `k`. -/
def rounds (k : Int) : Nat := if k < 0 then 0 else k.toNat + 1

/-- The next challenge computed at the end of each chain round:
`c = sha3(step(sha3(v)))` where `v = hmac(c, d)`. -/
def nextC (H : List Nat → List Nat) (d : List Nat) (step : List Nat → List Nat)
    (c : List Nat) : List Nat :=
  sha3 H (step (sha3 H (hmac H c d)))

/-- The chain loop shared by `store` and `prove`: runs `m` rounds from
challenge `c`, returning the flat accumulators `(cs, vs)`. -/
def chainLoop (H : List Nat → List Nat) (d : List Nat) (step : List Nat → List Nat) :
    Nat → List Nat → List Nat × List Nat
  | 0, _ => ([], [])
  | m + 1, c =>
    (c ++ (chainLoop H d step m (nextC H d step c)).1,
     hmac H c d ++ (chainLoop H d step m (nextC H d step c)).2)

/-- `fn store(c, d, p, q, t, k)` : fast path; derives `n = p*q` and the
trapdoor exponent, then runs the chain with `eval_trap`. -/
def store (H : List Nat → List Nat) (c0 d : List Nat) (p q t : Nat) (k : Int) :
    List Nat × List Nat :=
  (sha3 H (chainLoop H d (fun x => eval_trap x (p * q) (trapdoorExp p q t)) (rounds k) c0).1,
   sha3 H (chainLoop H d (fun x => eval_trap x (p * q) (trapdoorExp p q t)) (rounds k) c0).2)

/-- `fn prove(c, d, n, t, k)` : slow path; runs the chain with `eval`. -/
def prove (H : List Nat → List Nat) (c0 d : List Nat) (n t : Nat) (k : Int) :
    List Nat × List Nat :=
  (sha3 H (chainLoop H d (fun x => eval x n t) (rounds k) c0).1,
   sha3 H (chainLoop H d (fun x => eval x n t) (rounds k) c0).2)

/-- Per-round view of the chain: the list of challenges `c_0..` and of
responses `v_0..` produced by `m` rounds, round by round. -/
def roundSeq (H : List Nat → List Nat) (d : List Nat) (step : List Nat → List Nat) :
    Nat → List Nat → List (List Nat) × List (List Nat)
  | 0, _ => ([], [])
  | m + 1, c =>
    (c :: (roundSeq H d step m (nextC H d step c)).1,
     hmac H c d :: (roundSeq H d step m (nextC H d step c)).2)

/-- Value of a `Nat` reinterpreted as a two's-complement `i32`. -/
def toI32 (m : Nat) : Int :=
  if m % 2 ^ 32 < 2 ^ 31 then ((m % 2 ^ 32 : Nat) : Int)
  else ((m % 2 ^ 32 : Nat) : Int) - 2 ^ 32

/-- The `i32` shift `1 << t` in `store`: `none` models the panic on a
shift amount of 32 or more. -/
def shlOneI32 (t : Nat) : Option Int :=
  if t < 32 then some (toI32 (1 <<< t)) else none

/-- `BigNum::set_bit` takes an `i32` position and fails on a negative
one; `none` models that failure. -/
def setBitPos (v : Int) : Option Nat :=
  if 0 ≤ v then some v.toNat else none

/-- The bit position actually passed to `set_bit` in `store`, with both
failure modes of the 32-bit derivation made explicit. -/
def storeExpPos (t : Nat) : Option Nat := (shlOneI32 t).bind setBitPos

/-- The `usize` shift `1 << t` in `eval` on a 64-bit target: `none`
models the panic on a shift amount of 64 or more. -/
def shlOneUsize (t : Nat) : Option Nat :=
  if t < 64 then some (1 <<< t % 2 ^ 64) else none

/-! ### Properties of the byte encoding -/

theorem natToBytesAux_zero (f : Nat) : natToBytesAux f 0 = [] := by
  cases f <;> rfl

theorem natToBytesAux_fuel :
    ∀ f1 f2 m : Nat, m ≤ f1 → m ≤ f2 → natToBytesAux f1 m = natToBytesAux f2 m := by
  intro f1
  induction f1 with
  | zero =>
    intro f2 m h1 _
    have hm : m = 0 := by omega
    subst hm
    rw [natToBytesAux_zero, natToBytesAux_zero]
  | succ f ih =>
    intro f2 m h1 h2
    cases m with
    | zero => rw [natToBytesAux_zero, natToBytesAux_zero]
    | succ m2 =>
      cases f2 with
      | zero => omega
      | succ f3 =>
        simp only [natToBytesAux]
        rw [ih f3 ((m2 + 1) / 256) (by omega) (by omega)]

theorem natToBytes_eq (m : Nat) (h : m ≠ 0) :
    natToBytes m = natToBytes (m / 256) ++ [m % 256] := by
  cases m with
  | zero => exact absurd rfl h
  | succ m2 =>
    show natToBytesAux (m2 + 1) (m2 + 1) = _
    simp only [natToBytesAux, natToBytes]
    rw [natToBytesAux_fuel m2 ((m2 + 1) / 256) ((m2 + 1) / 256) (by omega) (by omega)]

theorem bytesToNat_snoc (l : List Nat) (b : Nat) :
    bytesToNat (l ++ [b]) = 256 * bytesToNat l + b := by
  simp only [bytesToNat, List.foldl_append, List.foldl]
  ring

theorem bytesToNat_natToBytes : ∀ m : Nat, bytesToNat (natToBytes m) = m := by
  intro m
  induction m using Nat.strong_induction_on with
  | _ m ih =>
    by_cases h : m = 0
    · subst h; rfl
    · rw [natToBytes_eq m h, bytesToNat_snoc,
        ih (m / 256) (Nat.div_lt_self (Nat.pos_of_ne_zero h) (by norm_num))]
      omega

theorem natToBytes_ne_nil (m : Nat) (h : m ≠ 0) : natToBytes m ≠ [] := by
  rw [natToBytes_eq m h]
  simp

theorem natToBytes_head : ∀ m : Nat, (natToBytes m).head? ≠ some 0 := by
  intro m
  induction m using Nat.strong_induction_on with
  | _ m ih =>
    by_cases h : m = 0
    · subst h
      simp [natToBytes, natToBytesAux]
    · rw [natToBytes_eq m h]
      by_cases hq : m / 256 = 0
      · rw [hq]
        show (natToBytes 0 ++ [m % 256]).head? ≠ some 0
        have h0 : natToBytes 0 = [] := rfl
        rw [h0]
        simp only [List.nil_append, List.head?]
        intro hc
        have : m % 256 = 0 := by simpa using hc
        omega
      · have hne := natToBytes_ne_nil (m / 256) hq
        rcases hcc : natToBytes (m / 256) with _ | ⟨c, cs⟩
        · exact absurd hcc hne
        · have h2 := ih (m / 256) (Nat.div_lt_self (Nat.pos_of_ne_zero h) (by norm_num))
          rw [hcc] at h2
          simpa using h2

theorem natToBytes_lt : ∀ m : Nat, ∀ b ∈ natToBytes m, b < 256 := by
  intro m
  induction m using Nat.strong_induction_on with
  | _ m ih =>
    by_cases h : m = 0
    · subst h
      intro b hb
      simp [natToBytes, natToBytesAux] at hb
    · intro b hb
      rw [natToBytes_eq m h] at hb
      rcases List.mem_append.mp hb with h1 | h2
      · exact ih (m / 256) (Nat.div_lt_self (Nat.pos_of_ne_zero h) (by norm_num)) b h1
      · have : b = m % 256 := by simpa using h2
        omega

/-! ### The squaring loop and the trapdoor exponent -/

theorem trapdoorExp_eq (p q t : Nat) :
    trapdoorExp p q t = 2 ^ 2 ^ t % ((p - 1) * (q - 1)) := by
  simp [trapdoorExp, set_bit, Nat.shiftLeft_eq, one_mul, Nat.zero_or]

theorem sqLoop_eq (n : Nat) : ∀ m x : Nat, m ≠ 0 → sqLoop n m x = x ^ 2 ^ m % n := by
  intro m
  induction m with
  | zero => intro x h; exact absurd rfl h
  | succ m ih =>
    intro x _
    by_cases hm : m = 0
    · subst hm
      show x * x % n = x ^ 2 ^ 1 % n
      rw [pow_one, pow_two]
    · show sqLoop n m (x * x % n) = _
      rw [ih _ hm, ← Nat.pow_mod, ← pow_two, ← pow_mul]
      rw [pow_succ]
      ring_nf

/-- Fermat-style congruence, one prime at a time: exponents that agree
modulo `p - 1` and are both positive give the same power modulo `p`,
with no coprimality assumption on the base. -/
theorem pow_congr_aux (p x a b : Nat) (hp : p.Prime) (ha : a ≠ 0) (hle : a ≤ b)
    (hab : a ≡ b [MOD p - 1]) : x ^ a ≡ x ^ b [MOD p] := by
  obtain ⟨m, hm⟩ := (Nat.modEq_iff_dvd' hle).mp hab
  have hb : b = a + (p - 1) * m :=
    ((Nat.sub_eq_iff_eq_add hle).mp hm).trans (Nat.add_comm _ _)
  subst hb
  by_cases hpx : p ∣ x
  · have h1 : x ^ a ≡ 0 [MOD p] :=
      Nat.modEq_zero_iff_dvd.mpr (dvd_pow hpx ha)
    have h2 : x ^ (a + (p - 1) * m) ≡ 0 [MOD p] :=
      Nat.modEq_zero_iff_dvd.mpr (dvd_pow hpx (by
        have h3 : 0 < a := Nat.pos_of_ne_zero ha
        have h4 : 0 < a + (p - 1) * m := Nat.lt_of_lt_of_le h3 (Nat.le_add_right _ _)
        exact h4.ne'))
    exact h1.trans h2.symm
  · have hco : Nat.Coprime x p := ((Nat.Prime.coprime_iff_not_dvd hp).mpr hpx).symm
    have heuler : x ^ (p - 1) ≡ 1 [MOD p] := by
      have h := Nat.ModEq.pow_totient hco
      rwa [Nat.totient_prime hp] at h
    have hpowm : (x ^ (p - 1)) ^ m ≡ 1 [MOD p] := by
      simpa using heuler.pow m
    have hsplit : x ^ (a + (p - 1) * m) = x ^ a * (x ^ (p - 1)) ^ m := by
      rw [pow_add, pow_mul]
    rw [hsplit]
    have h2 : x ^ a * (x ^ (p - 1)) ^ m ≡ x ^ a * 1 [MOD p] :=
      Nat.ModEq.mul_left _ hpowm
    simpa using h2.symm

theorem pow_congr_prime (p x a b : Nat) (hp : p.Prime) (ha : a ≠ 0) (hb : b ≠ 0)
    (hab : a ≡ b [MOD p - 1]) : x ^ a ≡ x ^ b [MOD p] := by
  rcases le_total a b with h | h
  · exact pow_congr_aux p x a b hp ha h hab
  · exact (pow_congr_aux p x b a hp hb h hab.symm).symm

/-- Core equivalence of the two evaluators at the level of integers: for
distinct primes with a nonzero reduced exponent, the reduced power and
the full power agree modulo `p * q`, for every base. -/
theorem trap_pow_eq (p q t x : Nat) (hp : p.Prime) (hq : q.Prime) (hpq : p ≠ q)
    (he : 2 ^ 2 ^ t % ((p - 1) * (q - 1)) ≠ 0) :
    x ^ (2 ^ 2 ^ t % ((p - 1) * (q - 1))) % (p * q) = x ^ 2 ^ 2 ^ t % (p * q) := by
  have hco : Nat.Coprime p q := (Nat.coprime_primes hp hq).mpr hpq
  have hmod : 2 ^ 2 ^ t % ((p - 1) * (q - 1)) ≡ 2 ^ 2 ^ t [MOD (p - 1) * (q - 1)] :=
    Nat.mod_modEq _ _
  have hE : (2 : Nat) ^ 2 ^ t ≠ 0 := (Nat.pow_pos (by norm_num)).ne'
  have hcp : x ^ (2 ^ 2 ^ t % ((p - 1) * (q - 1))) ≡ x ^ 2 ^ 2 ^ t [MOD p] :=
    pow_congr_prime p x _ _ hp he hE (hmod.of_dvd (dvd_mul_right _ _))
  have hcq : x ^ (2 ^ 2 ^ t % ((p - 1) * (q - 1))) ≡ x ^ 2 ^ 2 ^ t [MOD q] :=
    pow_congr_prime q x _ _ hq he hE (hmod.of_dvd (dvd_mul_left _ _))
  exact (Nat.modEq_and_modEq_iff_modEq_mul hco).mp ⟨hcp, hcq⟩

theorem eval_trap_eq_eval (p q t : Nat) (hp : p.Prime) (hq : q.Prime) (hpq : p ≠ q)
    (he : trapdoorExp p q t ≠ 0) (x : List Nat) :
    eval_trap x (p * q) (trapdoorExp p q t) = eval x (p * q) t := by
  rw [trapdoorExp_eq] at he ⊢
  unfold eval_trap eval
  rw [Nat.one_shiftLeft, sqLoop_eq (p * q) (2 ^ t) (bytesToNat x) (Nat.pow_pos (by norm_num)).ne']
  exact congrArg natToBytes (trap_pow_eq p q t (bytesToNat x) hp hq hpq he)

/-! ### Chain-level lemmas -/

theorem chainLoop_congr (H : List Nat → List Nat) (d : List Nat)
    (f g : List Nat → List Nat) (hfg : ∀ y, f y = g y) :
    ∀ (m : Nat) (c : List Nat), chainLoop H d f m c = chainLoop H d g m c := by
  intro m
  induction m with
  | zero => intro c; rfl
  | succ m ih =>
    intro c
    simp only [chainLoop, nextC, hfg, ih]

theorem chainLoop_flatten (H : List Nat → List Nat) (d : List Nat)
    (step : List Nat → List Nat) :
    ∀ (m : Nat) (c : List Nat),
      chainLoop H d step m c =
        ((roundSeq H d step m c).1.flatten, (roundSeq H d step m c).2.flatten) := by
  intro m
  induction m with
  | zero => intro c; rfl
  | succ m ih =>
    intro c
    simp only [chainLoop, roundSeq, ih, List.flatten_cons]

theorem roundSeq_take (H : List Nat → List Nat) (d : List Nat)
    (step : List Nat → List Nat) :
    ∀ j k : Nat, ∀ c : List Nat, j ≤ k →
      (roundSeq H d step (j + 1) c).1 = ((roundSeq H d step (k + 1) c).1.take (j + 1)) ∧
      (roundSeq H d step (j + 1) c).2 = ((roundSeq H d step (k + 1) c).2.take (j + 1)) := by
  intro j
  induction j with
  | zero =>
    intro k c _
    constructor <;> simp [roundSeq]
  | succ j ih =>
    intro k c hk
    cases k with
    | zero => omega
    | succ k2 =>
      have h2 : j ≤ k2 := by omega
      have hih := ih k2 (nextC H d step c) h2
      constructor
      · show c :: (roundSeq H d step (j + 1) (nextC H d step c)).1 =
          List.take (j + 1 + 1) (c :: (roundSeq H d step (k2 + 1) (nextC H d step c)).1)
        rw [List.take_succ_cons, hih.1]
      · show hmac H c d :: (roundSeq H d step (j + 1) (nextC H d step c)).2 =
          List.take (j + 1 + 1) (hmac H c d :: (roundSeq H d step (k2 + 1) (nextC H d step c)).2)
        rw [List.take_succ_cons, hih.2]

/-! ### Claim theorems -/

/-- Claim C1, counterexample: the fast and slow paths are not identical
for every pair of primes Setup can return.  Setup(4) returns `p = q = 3`
(the only odd 2-bit prime), and with `T = 1` the derived exponent is
`2 ^ 2 % 4 = 0`, so the fast path raises every value to the power zero
while the slow path squares it twice; at `k = 1` the differing round-1
challenge reaches the output.  Also recorded: the two evaluators
themselves differ on the concrete byte input `[2]`. -/
theorem store_ne_prove_equal_primes :
    store (fun l => l) [] [] 3 3 1 1 ≠ prove (fun l => l) [] [] 9 1 1 ∧
    eval_trap [2] 9 (trapdoorExp 3 3 1) ≠ eval [2] 9 1 := by
  decide

/-- Claim C1 (amended): for distinct primes `p ≠ q` whose derived
trapdoor exponent `2 ^ 2 ^ T mod (p-1)(q-1)` is nonzero, the fast path
`store` and the slow path `prove` (run on the modulus `p * q`) return
identical digest pairs, for every digest function, seed, data, delay
depth `T ≥ 0` and round count `k`. -/
theorem store_eq_prove (H : List Nat → List Nat) (c0 d : List Nat) (p q t : Nat) (k : Int)
    (hp : p.Prime) (hq : q.Prime) (hpq : p ≠ q) (he : trapdoorExp p q t ≠ 0) :
    store H c0 d p q t k = prove H c0 d (p * q) t k := by
  unfold store prove
  rw [chainLoop_congr H d (fun x => eval_trap x (p * q) (trapdoorExp p q t))
    (fun x => eval x (p * q) t) (eval_trap_eq_eval p q t hp hq hpq he) (rounds k) c0]

/-- Witness for the amended claim C1 at `p = 3`, `q = 5`, `T = 0`, `k = 1`. -/
theorem store_eq_prove_witness :
    Nat.Prime 3 ∧ Nat.Prime 5 ∧ (3 : Nat) ≠ 5 ∧ trapdoorExp 3 5 0 ≠ 0 ∧
    store (fun l => l) [] [] 3 5 0 1 = prove (fun l => l) [] [] 15 0 1 :=
  ⟨by norm_num, by norm_num, by norm_num, by decide,
   store_eq_prove (fun l => l) [] [] 3 5 0 1 (by norm_num) (by norm_num)
     (by norm_num) (by decide)⟩

/-- Claim C2, counterexample: `eval` does not return `x ^ 2 ^ T mod n`.
At `x = [2]`, `n = 5`, `T = 1` the loop squares twice, producing
`2 ^ 4 mod 5 = 1`, while the claimed formula gives `2 ^ 2 mod 5 = 4`. -/
theorem eval_ne_claimed_power :
    eval [2] 5 1 ≠ natToBytes (bytesToNat [2] ^ 2 ^ 1 % 5) := by
  decide

/-- Claim C2 (amended): `eval(x, n, T)` returns `x ^ (2 ^ 2 ^ T) mod n`
(the result of squaring the big-endian value of `x` modulo `n` exactly
`2 ^ T` times), encoded back to bytes. -/
theorem eval_spec (x : List Nat) (n t : Nat) (hn : 0 < n) :
    eval x n t = natToBytes (bytesToNat x ^ 2 ^ 2 ^ t % n) := by
  unfold eval
  rw [Nat.one_shiftLeft, sqLoop_eq n (2 ^ t) (bytesToNat x) (Nat.pow_pos (by norm_num)).ne']

/-- Witness for the amended claim C2 at `x = [2]`, `n = 5`, `T = 1`. -/
theorem eval_spec_witness :
    0 < 5 ∧ eval [2] 5 1 = natToBytes (bytesToNat [2] ^ 2 ^ 2 ^ 1 % 5) :=
  ⟨by decide, eval_spec [2] 5 1 (by decide)⟩

/-- Claim C3: the trapdoor exponent derived in `store` - a zero big
number with the bit at position `1 << T` set, reduced modulo
`phi = (p-1)(q-1)` - equals `2 ^ 2 ^ T mod phi`, for every `p`, `q`
and `T`. -/
theorem trapdoorExp_spec (p q t : Nat) :
    trapdoorExp p q t = 2 ^ 2 ^ t % ((p - 1) * (q - 1)) :=
  trapdoorExp_eq p q t

/-- Claim C4: at round count `k = 0` both paths execute exactly one
chain round and return `C = Digest(c0)`, `V = Digest(KeyedHash(c0, D))`,
for every digest function, seed, data and parameters. -/
theorem k_zero_one_round (H : List Nat → List Nat) (c0 d : List Nat) (p q t n tu : Nat) :
    rounds 0 = 1 ∧
    store H c0 d p q t 0 = (sha3 H c0, sha3 H (hmac H c0 d)) ∧
    prove H c0 d n tu 0 = (sha3 H c0, sha3 H (hmac H c0 d)) := by
  refine ⟨rfl, ?_, ?_⟩ <;> simp [store, prove, rounds, chainLoop]

/-- Claim C5: the keyed hash is exactly the plain digest of the key
followed by the message, because the streaming hasher concatenates its
inputs. -/
theorem hmac_eq_digest_of_concat (H : List Nat → List Nat) (key msg : List Nat) :
    hmac H key msg = sha3 H (key ++ msg) := by
  simp [hmac, sha3, Hasher.new, Hasher.update, Hasher.finish]

/-- Claim C6: `eval_trap(x, n, e)` returns `x ^ e mod n` (on the
big-endian value of `x`) encoded as a minimal big-endian byte string:
decoding it gives back the value, it has no leading zero byte, and
every entry is a byte. -/
theorem eval_trap_spec (x : List Nat) (n e : Nat) (hn : 0 < n) :
    bytesToNat (eval_trap x n e) = bytesToNat x ^ e % n ∧
    (eval_trap x n e).head? ≠ some 0 ∧
    ∀ b ∈ eval_trap x n e, b < 256 :=
  ⟨bytesToNat_natToBytes _, natToBytes_head _, natToBytes_lt _⟩

/-- Witness for claim C6 at `x = [3]`, `n = 7`, `e = 2`. -/
theorem eval_trap_spec_witness :
    0 < 7 ∧ (bytesToNat (eval_trap [3] 7 2) = bytesToNat [3] ^ 2 % 7 ∧
      (eval_trap [3] 7 2).head? ≠ some 0 ∧
      ∀ b ∈ eval_trap [3] 7 2, b < 256) :=
  ⟨by decide, eval_trap_spec [3] 7 2 (by decide)⟩

/-- Claim C7: `store` and `prove` are deterministic - two calls whose
inputs are equal componentwise return equal output pairs. -/
theorem store_prove_deterministic (H : List Nat → List Nat)
    (c0 d c0' d' : List Nat) (p q p' q' n n' t t' tu tu' : Nat) (k k' : Int)
    (h1 : c0 = c0') (h2 : d = d') (h3 : p = p') (h4 : q = q') (h5 : n = n')
    (h6 : t = t') (h7 : tu = tu') (h8 : k = k') :
    store H c0 d p q t k = store H c0' d' p' q' t' k' ∧
    prove H c0 d n tu k = prove H c0' d' n' tu' k' := by
  subst_vars
  exact ⟨rfl, rfl⟩

/-- Witness for claim C7 at concrete equal inputs. -/
theorem store_prove_deterministic_witness :
    store (fun l => l) [1] [2] 3 5 0 0 = store (fun l => l) [1] [2] 3 5 0 0 ∧
    prove (fun l => l) [1] [2] 15 0 0 = prove (fun l => l) [1] [2] 15 0 0 :=
  store_prove_deterministic (fun l => l) [1] [2] [1] [2] 3 5 3 5 15 15 0 0 0 0 0 0
    rfl rfl rfl rfl rfl rfl rfl rfl

/-- Claim C8: the chain is a deterministic prefix extension - for
`j ≤ k`, the per-round challenges and responses of the first `j + 1`
rounds of a run with `k + 1` rounds equal the full sequences of an
independent run with `j + 1` rounds; and the flat accumulators hashed
by `store`/`prove` are the concatenation of those per-round values.
`rounds` links the fuel `j + 1` to the `i32` round count `j`. -/
theorem chain_take_extension (H : List Nat → List Nat) (d : List Nat)
    (step : List Nat → List Nat) (j k : Nat) (c0 : List Nat) (hjk : j ≤ k) :
    rounds (j : Int) = j + 1 ∧ rounds (k : Int) = k + 1 ∧
    (roundSeq H d step (j + 1) c0).1 = ((roundSeq H d step (k + 1) c0).1.take (j + 1)) ∧
    (roundSeq H d step (j + 1) c0).2 = ((roundSeq H d step (k + 1) c0).2.take (j + 1)) ∧
    chainLoop H d step (j + 1) c0 =
      ((roundSeq H d step (j + 1) c0).1.flatten, (roundSeq H d step (j + 1) c0).2.flatten) := by
  have h := roundSeq_take H d step j k c0 hjk
  refine ⟨?_, ?_, h.1, h.2, chainLoop_flatten H d step (j + 1) c0⟩ <;>
    simp [rounds]

/-- Witness for claim C8 at `j = 0`, `k = 1`. -/
theorem chain_take_extension_witness :
    0 ≤ 1 ∧ (rounds ((0 : Nat) : Int) = 0 + 1 ∧ rounds ((1 : Nat) : Int) = 1 + 1 ∧
      (roundSeq (fun l => l) [] (fun l => l) (0 + 1) [5]).1 =
        ((roundSeq (fun l => l) [] (fun l => l) (1 + 1) [5]).1.take (0 + 1)) ∧
      (roundSeq (fun l => l) [] (fun l => l) (0 + 1) [5]).2 =
        ((roundSeq (fun l => l) [] (fun l => l) (1 + 1) [5]).2.take (0 + 1)) ∧
      chainLoop (fun l => l) [] (fun l => l) (0 + 1) [5] =
        ((roundSeq (fun l => l) [] (fun l => l) (0 + 1) [5]).1.flatten,
         (roundSeq (fun l => l) [] (fun l => l) (0 + 1) [5]).2.flatten)) :=
  ⟨by decide, chain_take_extension (fun l => l) [] (fun l => l) 0 1 [5] (by decide)⟩

/-- Claim C9: for `0 ≤ T ≤ 30` the 32-bit shift `1 << T` in `store`
does not overflow (it stays below `2 ^ 31`, so neither the
shift-amount panic nor a negative `set_bit` position is reachable) and
equals the ideal shift `1 <<< T` used in the exponent derivation, and
likewise the `usize` shift in `eval`. -/
theorem shift_no_overflow (t : Nat) (ht : t ≤ 30) :
    storeExpPos t = some (1 <<< t) ∧ shlOneUsize t = some (1 <<< t) ∧
    1 <<< t < 2 ^ 31 := by
  have h1 : (1 : Nat) <<< t = 2 ^ t := Nat.one_shiftLeft t
  have h2 : (2 : Nat) ^ t ≤ 2 ^ 30 := Nat.pow_le_pow_right (by norm_num) ht
  have h31 : (2 : Nat) ^ t < 2 ^ 31 := lt_of_le_of_lt h2 (by norm_num)
  have h32 : (2 : Nat) ^ t < 2 ^ 32 := lt_of_le_of_lt h2 (by norm_num)
  have h64 : (2 : Nat) ^ t < 2 ^ 64 := lt_of_le_of_lt h2 (by norm_num)
  refine ⟨?_, ?_, ?_⟩
  · have ht32 : t < 32 := by omega
    have hpos : (0 : Int) ≤ ((2 ^ t : Nat) : Int) := Int.natCast_nonneg _
    unfold storeExpPos shlOneI32 toI32 setBitPos
    rw [if_pos ht32, h1, Nat.mod_eq_of_lt h32, if_pos h31]
    show (if (0 : Int) ≤ ((2 ^ t : Nat) : Int)
      then some ((2 ^ t : Nat) : Int).toNat else none) = some (2 ^ t)
    rw [if_pos hpos, Int.toNat_natCast]
  · have ht64 : t < 64 := by omega
    unfold shlOneUsize
    rw [if_pos ht64, h1, Nat.mod_eq_of_lt h64]
  · rw [h1]; exact h31

/-- Witness for claim C9 at `T = 30`. -/
theorem shift_no_overflow_witness :
    30 ≤ 30 ∧ (storeExpPos 30 = some (1 <<< 30) ∧ shlOneUsize 30 = some (1 <<< 30) ∧
      1 <<< 30 < 2 ^ 31) :=
  ⟨by decide, shift_no_overflow 30 (by decide)⟩

/-- Claim C10: for every negative round count the `0..=k` loop is
empty, so both paths return the digest of the empty byte string twice,
whatever the digest function, seed, data and parameters are. -/
theorem negative_rounds_empty (H : List Nat → List Nat) (c0 d : List Nat)
    (p q t n tu : Nat) (k : Int) (hk : k < 0) :
    store H c0 d p q t k = (sha3 H [], sha3 H []) ∧
    prove H c0 d n tu k = (sha3 H [], sha3 H []) := by
  have hr : rounds k = 0 := by simp [rounds, hk]
  constructor <;> simp [store, prove, hr, chainLoop]

/-- Witness for claim C10 at `k = -1`. -/
theorem negative_rounds_empty_witness :
    (-1 : Int) < 0 ∧
    (store (fun l => l) [1] [2] 3 5 2 (-1) = (sha3 (fun l => l) [], sha3 (fun l => l) []) ∧
     prove (fun l => l) [1] [2] 15 4 (-1) = (sha3 (fun l => l) [], sha3 (fun l => l) [])) :=
  ⟨by decide, negative_rounds_empty (fun l => l) [1] [2] 3 5 2 15 4 (-1) (by decide)⟩

end PoST
